import Mathlib

/-!
Shallow embedding of the `bft` Brainfuck toolkit (crates `bft_types` and
`bft_interp`) and proofs about its program analysis and interpreter.

The embedding follows the Rust sources:
* `bft_types/src/lib.rs`: `Instruction`, `Instruction::from_char`,
  `LocalisedInstruction`, `BfProgram`, `BfProgram::new`,
  `BfProgram::analyse_program`, `BfProgram::jump_target`.
* `bft_interp/src/lib.rs`: `VMError`, `VirtualMachine`, the head-motion,
  cell-arithmetic, stream and jump handlers, and the fetch-execute loop
  `interpret` (modelled with explicit fuel).

Machine integers (`usize`, `u8`) are modelled as `Nat`, with wrapping
8-bit arithmetic written out as `% 256`.  Byte streams are modelled as
lists of bytes: reading takes the head of the input list (failing on an
empty list, as `read_exact` does on an exhausted reader), writing appends
to the output list (an unbounded sink).
-/

namespace Bft

/-- Types of Brainfuck instructions (enum `Instruction`). -/
inductive Instruction where
  | MoveLeft
  | MoveRight
  | Increment
  | Decrement
  | Input
  | Output
  | ConditionalJumpForward
  | ConditionalJumpBackward
deriving DecidableEq, Repr, Inhabited

/-- `Instruction::from_char`: parse a single char into an instruction. -/
def Instruction.from_char (c : Char) : Option Instruction :=
  match c with
  | '<' => some Instruction.MoveLeft
  | '>' => some Instruction.MoveRight
  | '+' => some Instruction.Increment
  | '-' => some Instruction.Decrement
  | '.' => some Instruction.Output
  | ',' => some Instruction.Input
  | '[' => some Instruction.ConditionalJumpForward
  | ']' => some Instruction.ConditionalJumpBackward
  | _ => none

/-- A single instruction with its 1-indexed line and column
(struct `LocalisedInstruction`). -/
structure LocalisedInstruction where
  instruction : Instruction
  line_num : Nat
  column_num : Nat
deriving DecidableEq, Repr, Inhabited

/-- Splitting source text into lines, as `str::lines` does.  Modelled on the
character list: pieces between `'\n'` separators.  (A `'\r'` before the
separator is not stripped here; `'\r'` maps to no instruction, so the
located instructions are unaffected.) -/
def splitLines : List Char → List (List Char)
  | [] => [[]]
  | c :: rest =>
    if c = '\n' then [] :: splitLines rest
    else
      match splitLines rest with
      | l :: ls => (c :: l) :: ls
      | [] => [[c]]

/-- The inner loop of `BfProgram::new`: scan one line, 0-indexed column
counter `col_number`, keeping the mapped characters as located
instructions (stored 1-indexed). -/
def lexLine (line_number : Nat) : Nat → List Char → List LocalisedInstruction
  | _, [] => []
  | col_number, c :: rest =>
    match Instruction.from_char c with
    | some instr =>
        ⟨instr, line_number + 1, col_number + 1⟩ :: lexLine line_number (col_number + 1) rest
    | none => lexLine line_number (col_number + 1) rest

/-- The tokenizing loops of `BfProgram::new`: enumerate lines (0-indexed),
scan each line, concatenate the located instructions in source order. -/
def lex (file_contents : String) : List LocalisedInstruction :=
  ((splitLines file_contents.toList).enum).flatMap fun p => lexLine p.1 0 p.2

/-- The data carried by the `format!("{}: Unmatched bracket on line {}, col {}", ..)`
error string produced by `BfProgram::analyse_program`. -/
structure AnalysisError where
  name : String
  line_num : Nat
  column_num : Nat
deriving DecidableEq, Repr

/-- Representation of a Brainfuck program (struct `BfProgram`).  The file
name (`PathBuf`) is modelled as a `String`. -/
structure BfProgram where
  name : String
  instructions : List LocalisedInstruction
  jump_map : List (Option Nat)
deriving DecidableEq, Repr

/-- The bracket-matching walk inside `BfProgram::analyse_program`: iterate
over the enumerated instructions, pushing forward jumps onto
`jump_instructions` (a stack, most recent element first, matching
`Vec::push`/`Vec::pop` at the tail) and popping them as the matching
backward jumps are found, recording both jump-map entries.  The jump map
is appended to (`Vec::push`), with the entry of a popped `[` updated in
place at its absolute index. -/
def analyseWalk (name : String) :
    List (Nat × LocalisedInstruction) → List (Nat × LocalisedInstruction) →
    List (Option Nat) →
    Except AnalysisError (List (Nat × LocalisedInstruction) × List (Option Nat))
  | [], stack, m => .ok (stack, m)
  | (program_index, li) :: rest, stack, m =>
    if li.instruction = Instruction.ConditionalJumpForward then
      analyseWalk name rest ((program_index, li) :: stack) (m ++ [none])
    else if li.instruction = Instruction.ConditionalJumpBackward then
      match stack with
      | popped_jump :: stack' =>
          analyseWalk name rest stack'
            ((m ++ [some (popped_jump.1 + 1)]).set popped_jump.1 (some (program_index + 1)))
      | [] => .error ⟨name, li.line_num, li.column_num⟩
    else
      analyseWalk name rest stack (m ++ [none])

/-- `BfProgram::analyse_program`.  The Rust method mutates `self.jump_map`
(appending, never clearing) and returns `Result<(), String>`; it is
modelled as returning the updated program on success and the error data on
failure.  On failure the partially updated map is not observable through
any code path modelled here.  After the walk, `jump_instructions.pop()`
inspects the most recently pushed remaining entry. -/
def BfProgram.analyse_program (p : BfProgram) : Except AnalysisError BfProgram :=
  match analyseWalk p.name p.instructions.enum [] p.jump_map with
  | .error e => .error e
  | .ok (stack, m) =>
    match stack with
    | unmatched_jump :: _ =>
        .error ⟨p.name, unmatched_jump.2.line_num, unmatched_jump.2.column_num⟩
    | [] => .ok { p with jump_map := m }

/-- `BfProgram::new`: tokenize the text, then analyse the program (the
fresh program starts with an empty jump map). -/
def BfProgram.new (filename : String) (file_contents : String) :
    Except AnalysisError BfProgram :=
  BfProgram.analyse_program
    { name := filename, instructions := lex file_contents, jump_map := [] }

/-- `BfProgram::jump_target`.  Rust indexes `self.jump_map[program_index]`
(a panic when out of range, modelled as `none`) and maps a missing entry
to `0`. -/
def BfProgram.jump_target (p : BfProgram) (program_index : Nat) : Option Nat :=
  (p.jump_map[program_index]?).map fun o =>
    match o with
    | some target => target
    | none => 0

/-- Error types emitted by the virtual machine (enum `VMError`).  The
`std::io::Error` payloads are modelled as strings. -/
inductive VMError where
  | HeadUnderrun (li : LocalisedInstruction)
  | HeadOverrun (li : LocalisedInstruction)
  | ReadError (li : LocalisedInstruction) (msg : String)
  | WriteError (li : LocalisedInstruction) (msg : String)
  | UnmappedJump (li : LocalisedInstruction)
deriving DecidableEq, Repr

/-- The mutable state of `VirtualMachine<u8>`: the tape, head, growth flag
and program counter.  The borrowed program is passed to each operation
separately. -/
structure VirtualMachine where
  cells : List Nat
  head : Nat
  tape_can_grow : Bool
  program_counter : Nat
deriving DecidableEq, Repr

/-- `impl CellKind for u8`: wrapping increment. -/
def wrapping_increment (v : Nat) : Nat := (v + 1) % 256

/-- `impl CellKind for u8`: wrapping decrement (`u8::wrapping_sub(1)`). -/
def wrapping_decrement (v : Nat) : Nat := (v + 256 - 1) % 256

/-- The instruction at the current program counter, used for error
payloads (`self.program.localised_instructions()[self.program_counter]`).
The interpreter only reads it at in-range counters. -/
def currentInstr (p : BfProgram) (vm : VirtualMachine) : LocalisedInstruction :=
  p.instructions.getD vm.program_counter default

/-- `VirtualMachine::move_head_left`. -/
def VirtualMachine.move_head_left (p : BfProgram) (vm : VirtualMachine) :
    Except VMError (Nat × VirtualMachine) :=
  if vm.head > 0 then .ok (vm.program_counter + 1, { vm with head := vm.head - 1 })
  else .error (.HeadUnderrun (currentInstr p vm))

/-- `VirtualMachine::move_head_right`: the head is incremented first; if it
now equals the tape length, either grow by one default cell or fail. -/
def VirtualMachine.move_head_right (p : BfProgram) (vm : VirtualMachine) :
    Except VMError (Nat × VirtualMachine) :=
  let vm' := { vm with head := vm.head + 1 }
  if vm'.head = vm'.cells.length then
    if vm'.tape_can_grow then
      .ok (vm'.program_counter + 1, { vm' with cells := vm'.cells ++ [0] })
    else .error (.HeadOverrun (currentInstr p vm'))
  else .ok (vm'.program_counter + 1, vm')

/-- `VirtualMachine::increment_cell`.  The cell access
`self.cells[self.head]` is in range whenever the interpreter invariant
`head < cells.len()` holds; out-of-range reads are modelled with a `0`
default and out-of-range `set` as a no-op. -/
def VirtualMachine.increment_cell (vm : VirtualMachine) :
    Except VMError (Nat × VirtualMachine) :=
  .ok (vm.program_counter + 1,
    { vm with cells := vm.cells.set vm.head (wrapping_increment (vm.cells.getD vm.head 0)) })

/-- `VirtualMachine::decrement_cell`. -/
def VirtualMachine.decrement_cell (vm : VirtualMachine) :
    Except VMError (Nat × VirtualMachine) :=
  .ok (vm.program_counter + 1,
    { vm with cells := vm.cells.set vm.head (wrapping_decrement (vm.cells.getD vm.head 0)) })

/-- `VirtualMachine::read_value`: read exactly one byte from the source
into the cell at the head; an exhausted source fails like `read_exact`. -/
def VirtualMachine.read_value (p : BfProgram) (vm : VirtualMachine)
    (source : List Nat) : Except VMError (Nat × VirtualMachine × List Nat) :=
  match source with
  | b :: rest =>
      .ok (vm.program_counter + 1, { vm with cells := vm.cells.set vm.head (b % 256) }, rest)
  | [] => .error (.ReadError (currentInstr p vm) "failed to fill whole buffer")

/-- `VirtualMachine::print_value`: write the byte of the cell at the head
to the sink.  The abstract sink is unbounded, so the write error branch is
not reachable in this model. -/
def VirtualMachine.print_value (p : BfProgram) (vm : VirtualMachine)
    (sink : List Nat) : Except VMError (Nat × List Nat) :=
  .ok (vm.program_counter + 1, sink ++ [vm.cells.getD vm.head 0])

/-- `VirtualMachine::conditional_jump_forward`.  `self.program.jump_map()`
is the field accessor for `BfProgram::jump_map`; an out-of-range index (a
panic in Rust, never reached from the interpreter loop) is merged into the
missing-entry branch. -/
def VirtualMachine.conditional_jump_forward (p : BfProgram) (vm : VirtualMachine) :
    Except VMError Nat :=
  match p.jump_map.getD vm.program_counter none with
  | some jump_index =>
      if vm.cells.getD vm.head 0 = 0 then .ok jump_index
      else .ok (vm.program_counter + 1)
  | none => .error (.UnmappedJump (currentInstr p vm))

/-- `VirtualMachine::conditional_jump_backward`. -/
def VirtualMachine.conditional_jump_backward (p : BfProgram) (vm : VirtualMachine) :
    Except VMError Nat :=
  match p.jump_map.getD vm.program_counter none with
  | some jump_index =>
      if vm.cells.getD vm.head 0 = 0 then .ok (vm.program_counter + 1)
      else .ok jump_index
  | none => .error (.UnmappedJump (currentInstr p vm))

/-- `VirtualMachine::new`: choose the tape size (defaulting to 30000),
re-analyse the program (the Rust method takes `&mut BfProgram` and calls
`analyse_program` again), and build the initial machine state.  The
(possibly updated) program is returned alongside the machine to make the
mutation of the borrowed program explicit.  `tape_size` models
`Option<NonZeroUsize>`; positivity is carried as a hypothesis where it
matters. -/
def VirtualMachine.new (program : BfProgram) (tape_size : Option Nat)
    (tape_can_grow : Bool) : Except AnalysisError (VirtualMachine × BfProgram) :=
  let ts := tape_size.getD 30000
  match program.analyse_program with
  | .error e => .error e
  | .ok p' => .ok (⟨List.replicate ts 0, 0, tape_can_grow, 0⟩, p')

/-- Result of running the fuelled interpreter loop. -/
inductive RunResult where
  /-- The loop exited normally: the program counter reached the
  instruction count. -/
  | done (vm : VirtualMachine) (input sink : List Nat)
  /-- Fuel ran out with the loop still in progress; the components are the
  machine state at that point. -/
  | more (vm : VirtualMachine) (input sink : List Nat)
  /-- An instruction failed; the run stops immediately. -/
  | failed (e : VMError)
deriving DecidableEq, Repr

/-- `VirtualMachine::interpret`, with explicit fuel bounding the number of
loop iterations: fetch the instruction at the program counter, dispatch,
and set the next program counter from the dispatch result. -/
def interpretN (p : BfProgram) : Nat → VirtualMachine → List Nat → List Nat → RunResult
  | 0, vm, input, sink => .more vm input sink
  | fuel + 1, vm, input, sink =>
    if h : vm.program_counter < p.instructions.length then
      match (p.instructions.get ⟨vm.program_counter, h⟩).instruction with
      | .MoveLeft =>
        match vm.move_head_left p with
        | .error e => .failed e
        | .ok (npc, vm') => interpretN p fuel { vm' with program_counter := npc } input sink
      | .MoveRight =>
        match vm.move_head_right p with
        | .error e => .failed e
        | .ok (npc, vm') => interpretN p fuel { vm' with program_counter := npc } input sink
      | .Increment =>
        match vm.increment_cell with
        | .error e => .failed e
        | .ok (npc, vm') => interpretN p fuel { vm' with program_counter := npc } input sink
      | .Decrement =>
        match vm.decrement_cell with
        | .error e => .failed e
        | .ok (npc, vm') => interpretN p fuel { vm' with program_counter := npc } input sink
      | .Input =>
        match vm.read_value p input with
        | .error e => .failed e
        | .ok (npc, vm', input') =>
            interpretN p fuel { vm' with program_counter := npc } input' sink
      | .Output =>
        match vm.print_value p sink with
        | .error e => .failed e
        | .ok (npc, sink') =>
            interpretN p fuel { vm with program_counter := npc } input sink'
      | .ConditionalJumpForward =>
        match vm.conditional_jump_forward p with
        | .error e => .failed e
        | .ok npc => interpretN p fuel { vm with program_counter := npc } input sink
      | .ConditionalJumpBackward =>
        match vm.conditional_jump_backward p with
        | .error e => .failed e
        | .ok npc => interpretN p fuel { vm with program_counter := npc } input sink
    else .done vm input sink

/-! ## Specification-side notions

The following definitions are not translations of program code: they give
the algorithm-independent meaning of bracket matching used to state the
claims (matched partner brackets, correctly nested texts, unmatched
opening brackets). -/

/-- The instruction kind at index `i`. -/
def kindAt (l : List LocalisedInstruction) (i : Nat) : Option Instruction :=
  (l[i]?).map LocalisedInstruction.instruction

/-- Contribution of one instruction to the bracket nesting depth. -/
def bracketDelta : Option Instruction → Int
  | some Instruction.ConditionalJumpForward => 1
  | some Instruction.ConditionalJumpBackward => -1
  | _ => 0

/-- Bracket nesting depth of the prefix of length `k`: number of `[`s
minus number of `]`s among the first `k` instructions. -/
def depth (l : List LocalisedInstruction) : Nat → Int
  | 0 => 0
  | k + 1 => depth l k + bracketDelta (kindAt l k)

/-- `i` and `j` are a matched pair of brackets: `[` at `i`, `]` at `j`,
and the nesting depth stays above its value at `i` strictly between them,
returning to it immediately after `j`. -/
def matched (l : List LocalisedInstruction) (i j : Nat) : Prop :=
  kindAt l i = some Instruction.ConditionalJumpForward ∧
  kindAt l j = some Instruction.ConditionalJumpBackward ∧
  i < j ∧ depth l (j + 1) = depth l i ∧
  ∀ t ≤ j, i < t → depth l i < depth l t

instance (l : List LocalisedInstruction) (i j : Nat) : Decidable (matched l i j) := by
  unfold matched; infer_instance

/-- The bracket instructions of `l` are correctly nested: no prefix closes
more brackets than it opened, and the whole sequence closes every one. -/
def balanced (l : List LocalisedInstruction) : Prop :=
  (∀ k ≤ l.length, 0 ≤ depth l k) ∧ depth l l.length = 0

instance (l : List LocalisedInstruction) : Decidable (balanced l) := by
  unfold balanced; infer_instance

/-- A forward jump at `i` with no matched backward jump anywhere in the
program. -/
def unmatchedOpen (l : List LocalisedInstruction) (i : Nat) : Prop :=
  kindAt l i = some Instruction.ConditionalJumpForward ∧
  ∀ j < l.length, ¬ matched l i j

instance (l : List LocalisedInstruction) (i : Nat) : Decidable (unmatchedOpen l i) := by
  unfold unmatchedOpen; infer_instance

/-! ## Basic lemmas about indices and depth -/

theorem getElem?_some_lt {α : Type} {l : List α} {i : Nat} {a : α}
    (h : l[i]? = some a) : i < l.length := by
  by_contra hge
  rw [List.getElem?_len_le (Nat.le_of_not_lt hge)] at h
  exact Option.noConfusion h

theorem kindAt_lt {l : List LocalisedInstruction} {i : Nat} {x : Instruction}
    (h : kindAt l i = some x) : i < l.length := by
  unfold kindAt at h
  cases e : l[i]? with
  | none => rw [e] at h; exact Option.noConfusion h
  | some li => exact getElem?_some_lt e

theorem kindAt_of_getElem? {l : List LocalisedInstruction} {i : Nat}
    {li : LocalisedInstruction} (h : l[i]? = some li) :
    kindAt l i = some li.instruction := by
  unfold kindAt; rw [h]; rfl

theorem depth_succ (l : List LocalisedInstruction) (k : Nat) :
    depth l (k + 1) = depth l k + bracketDelta (kindAt l k) := rfl

theorem bracketDelta_other {x : Instruction}
    (h1 : x ≠ Instruction.ConditionalJumpForward)
    (h2 : x ≠ Instruction.ConditionalJumpBackward) :
    bracketDelta (some x) = 0 := by
  cases x <;> first | rfl | exact absurd rfl h1 | exact absurd rfl h2

theorem depth_succ_open {l : List LocalisedInstruction} {k : Nat}
    (h : kindAt l k = some Instruction.ConditionalJumpForward) :
    depth l (k + 1) = depth l k + 1 := by
  rw [depth_succ, h]; rfl

theorem depth_succ_close {l : List LocalisedInstruction} {k : Nat}
    (h : kindAt l k = some Instruction.ConditionalJumpBackward) :
    depth l (k + 1) = depth l k - 1 := by
  rw [depth_succ, h]; rfl

theorem depth_succ_other {l : List LocalisedInstruction} {k : Nat}
    (h1 : kindAt l k ≠ some Instruction.ConditionalJumpForward)
    (h2 : kindAt l k ≠ some Instruction.ConditionalJumpBackward) :
    depth l (k + 1) = depth l k := by
  rw [depth_succ]
  cases e : kindAt l k with
  | none => simp [bracketDelta]
  | some x =>
    rw [e] at h1 h2
    rw [bracketDelta_other (fun hx => h1 (by rw [hx])) (fun hx => h2 (by rw [hx]))]
    omega

theorem drop_eq_cons {α : Type} {l : List α} {k : Nat} {x : α} {xs : List α}
    (h : l.drop k = x :: xs) : l[k]? = some x ∧ l.drop (k + 1) = xs := by
  induction k generalizing l with
  | zero => cases l <;> simp_all
  | succ k ih =>
    cases l with
    | nil => simp at h
    | cons y ys =>
      rw [List.drop_succ_cons] at h
      simpa using ih h

/-! ## The stack invariant of the bracket-matching walk

`StackOk l k m d s` says that `s` is a well-formed stack of still-unmatched
forward jumps after the walk has processed the first `k` instructions of
`l`, where `d = depth l k`: each entry's nesting level decreases going
down the stack, the depth stays strictly above an entry's level from the
entry to the current position, and the entry's jump-map slot is still the
`None` placeholder. -/

def StackOk (l : List LocalisedInstruction) (k : Nat) (m : List (Option Nat)) :
    Int → List (Nat × LocalisedInstruction) → Prop
  | d, [] => d = 0
  | d, (i, li) :: rest =>
    i < k ∧ l[i]? = some li ∧
    li.instruction = Instruction.ConditionalJumpForward ∧
    m[i]? = some none ∧ depth l i = d - 1 ∧
    (∀ t ≤ k, i < t → depth l i < depth l t) ∧
    StackOk l k m (d - 1) rest

theorem stackok_length {l : List LocalisedInstruction} {k : Nat}
    {m : List (Option Nat)} {d : Int} {s : List (Nat × LocalisedInstruction)}
    (h : StackOk l k m d s) : d = s.length := by
  induction s generalizing d with
  | nil => simpa [StackOk] using h
  | cons p rest ih =>
    obtain ⟨i, li⟩ := p
    obtain ⟨-, -, -, -, -, -, hrest⟩ := h
    have := ih hrest
    simp [List.length_cons]
    omega

theorem stackok_mem {l : List LocalisedInstruction} {k : Nat}
    {m : List (Option Nat)} {d : Int} {s : List (Nat × LocalisedInstruction)}
    {i : Nat} {li : LocalisedInstruction}
    (h : StackOk l k m d s) (hmem : (i, li) ∈ s) :
    i < k ∧ l[i]? = some li ∧
    li.instruction = Instruction.ConditionalJumpForward ∧
    m[i]? = some none ∧ depth l i < d ∧
    (∀ t ≤ k, i < t → depth l i < depth l t) := by
  induction s generalizing d with
  | nil => cases hmem
  | cons p rest ih =>
    obtain ⟨i', li'⟩ := p
    obtain ⟨h1, h2, h3, h4, h5, h6, hrest⟩ := h
    rcases List.mem_cons.1 hmem with heq | hmem'
    · obtain ⟨hi, hli⟩ := Prod.mk.injEq .. ▸ heq
      subst hi; subst hli
      exact ⟨h1, h2, h3, h4, by omega, h6⟩
    · obtain ⟨g1, g2, g3, g4, g5, g6⟩ := ih hrest hmem'
      exact ⟨g1, g2, g3, g4, by omega, g6⟩

theorem stackok_append {l : List LocalisedInstruction} {k : Nat}
    {m : List (Option Nat)} {d : Int} {s : List (Nat × LocalisedInstruction)}
    (h : StackOk l k m d s) (xs : List (Option Nat)) :
    StackOk l k (m ++ xs) d s := by
  induction s generalizing d with
  | nil => simpa [StackOk] using h
  | cons p rest ih =>
    obtain ⟨i, li⟩ := p
    obtain ⟨h1, h2, h3, h4, h5, h6, hrest⟩ := h
    exact ⟨h1, h2, h3,
      by rw [List.getElem?_append_left (getElem?_some_lt h4)]; exact h4,
      h5, h6, ih hrest⟩

theorem stackok_set {l : List LocalisedInstruction} {k : Nat}
    {m : List (Option Nat)} {d : Int} {s : List (Nat × LocalisedInstruction)}
    {ci : Nat} {v : Option Nat}
    (h : StackOk l k m d s) (hne : ∀ p ∈ s, p.1 ≠ ci) :
    StackOk l k (m.set ci v) d s := by
  induction s generalizing d with
  | nil => simpa [StackOk] using h
  | cons p rest ih =>
    obtain ⟨i, li⟩ := p
    obtain ⟨h1, h2, h3, h4, h5, h6, hrest⟩ := h
    refine ⟨h1, h2, h3, ?_, h5, h6,
      ih hrest (fun q hq => hne q (List.mem_cons_of_mem _ hq))⟩
    have hic : i ≠ ci := hne (i, li) (List.mem_cons_self _ _)
    rw [List.getElem?_set_ne (Ne.symm hic)]
    exact h4

theorem stackok_advance {l : List LocalisedInstruction} {k : Nat}
    {m : List (Option Nat)} {d : Int} {s : List (Nat × LocalisedInstruction)}
    (h : StackOk l k m d s) (hd : d ≤ depth l (k + 1)) :
    StackOk l (k + 1) m d s := by
  induction s generalizing d with
  | nil => simpa [StackOk] using h
  | cons p rest ih =>
    obtain ⟨i, li⟩ := p
    obtain ⟨h1, h2, h3, h4, h5, h6, hrest⟩ := h
    refine ⟨Nat.lt_succ_of_lt h1, h2, h3, h4, h5, ?_, ih hrest (by omega)⟩
    intro t ht hit
    rcases Nat.lt_or_ge t (k + 1) with hlt | hge
    · exact h6 t (Nat.lt_succ_iff.1 hlt) hit
    · have : t = k + 1 := Nat.le_antisymm ht hge
      subst this
      omega

theorem stackok_congr {l : List LocalisedInstruction} {k : Nat}
    {m : List (Option Nat)} {d d' : Int} {s : List (Nat × LocalisedInstruction)}
    (h : StackOk l k m d s) (hd : d = d') : StackOk l k m d' s := hd ▸ h

/-! ## The full invariant of the bracket-matching walk -/

/-- Invariant of the walk after processing the first `k` instructions with
stack `stack` and jump map `m` (starting from an empty jump map):
every already-scanned forward jump is either still on the stack or
recorded together with its matched partner, every already-scanned backward
jump is recorded with its matched partner, and every other slot holds
`None`. -/
structure WalkInv (l : List LocalisedInstruction) (k : Nat)
    (stack : List (Nat × LocalisedInstruction)) (m : List (Option Nat)) : Prop where
  kle : k ≤ l.length
  mlen : m.length = k
  stk : StackOk l k m (depth l k) stack
  opens : ∀ i < k, kindAt l i = some Instruction.ConditionalJumpForward →
    (∃ li, (i, li) ∈ stack) ∨
    ∃ j, j < k ∧ matched l i j ∧
      m[i]? = some (some (j + 1)) ∧ m[j]? = some (some (i + 1))
  closes : ∀ j < k, kindAt l j = some Instruction.ConditionalJumpBackward →
    ∃ i, matched l i j ∧ m[j]? = some (some (i + 1)) ∧ m[i]? = some (some (j + 1))
  others : ∀ i < k, bracketDelta (kindAt l i) = 0 → m[i]? = some none

theorem walkinv_zero (l : List LocalisedInstruction) : WalkInv l 0 [] [] where
  kle := Nat.zero_le _
  mlen := rfl
  stk := rfl
  opens := fun i hi => absurd hi (Nat.not_lt_zero i)
  closes := fun j hj => absurd hj (Nat.not_lt_zero j)
  others := fun i hi => absurd hi (Nat.not_lt_zero i)

theorem walkinv_step_open {l : List LocalisedInstruction} {k : Nat}
    {stack : List (Nat × LocalisedInstruction)} {m : List (Option Nat)}
    {li : LocalisedInstruction}
    (inv : WalkInv l k stack m) (hget : l[k]? = some li)
    (hJF : li.instruction = Instruction.ConditionalJumpForward) :
    WalkInv l (k + 1) ((k, li) :: stack) (m ++ [none]) := by
  have hklt : k < l.length := getElem?_some_lt hget
  have kindk : kindAt l k = some Instruction.ConditionalJumpForward := by
    rw [kindAt_of_getElem? hget, hJF]
  have dsucc : depth l (k + 1) = depth l k + 1 := depth_succ_open kindk
  have hmk : (m ++ [none])[k]? = some none := by
    rw [← inv.mlen]; exact List.getElem?_concat_length m none
  have hold : ∀ {idx : Nat}, idx < m.length → (m ++ [none])[idx]? = m[idx]? :=
    fun h => List.getElem?_append_left h
  refine ⟨hklt, by simp [inv.mlen], ?_, ?_, ?_, ?_⟩
  · refine ⟨Nat.lt_succ_self k, hget, hJF, hmk, by omega, ?_,
      stackok_congr
        (stackok_advance (stackok_append inv.stk [none]) (by omega)) (by omega)⟩
    intro t ht hkt
    have : t = k + 1 := Nat.le_antisymm ht hkt
    subst this
    omega
  · intro i hik hkind
    rcases Nat.lt_succ_iff_lt_or_eq.1 hik with hik' | rfl
    · rcases inv.opens i hik' hkind with ⟨li', hmem⟩ | ⟨j, hj, hmj, e1, e2⟩
      · exact Or.inl ⟨li', List.mem_cons_of_mem _ hmem⟩
      · exact Or.inr ⟨j, Nat.lt_succ_of_lt hj, hmj,
          by rw [hold (getElem?_some_lt e1)]; exact e1,
          by rw [hold (getElem?_some_lt e2)]; exact e2⟩
    · exact Or.inl ⟨li, List.mem_cons_self _ _⟩
  · intro j hjk hkind
    rcases Nat.lt_succ_iff_lt_or_eq.1 hjk with hjk' | rfl
    · obtain ⟨i, hmi, e1, e2⟩ := inv.closes j hjk' hkind
      exact ⟨i, hmi, by rw [hold (getElem?_some_lt e1)]; exact e1,
        by rw [hold (getElem?_some_lt e2)]; exact e2⟩
    · rw [kindk] at hkind
      exact absurd (Option.some.inj hkind) (by decide)
  · intro i hik hz
    rcases Nat.lt_succ_iff_lt_or_eq.1 hik with hik' | rfl
    · have := inv.others i hik' hz
      rw [hold (getElem?_some_lt this)]; exact this
    · rw [kindk] at hz
      exact absurd hz (by decide)

theorem walkinv_step_close {l : List LocalisedInstruction} {k : Nat}
    {stack : List (Nat × LocalisedInstruction)} {m : List (Option Nat)}
    {li cli : LocalisedInstruction} {ci : Nat}
    (inv : WalkInv l k ((ci, cli) :: stack) m) (hget : l[k]? = some li)
    (hJB : li.instruction = Instruction.ConditionalJumpBackward) :
    matched l ci k ∧
    WalkInv l (k + 1) stack ((m ++ [some (ci + 1)]).set ci (some (k + 1))) := by
  have hklt : k < l.length := getElem?_some_lt hget
  have kindk : kindAt l k = some Instruction.ConditionalJumpBackward := by
    rw [kindAt_of_getElem? hget, hJB]
  have dsucc : depth l (k + 1) = depth l k - 1 := depth_succ_close kindk
  obtain ⟨hci, hcli, hkindci, hmci, hdci, hforall, hrest⟩ := inv.stk
  have kindci : kindAt l ci = some Instruction.ConditionalJumpForward := by
    rw [kindAt_of_getElem? hcli, hkindci]
  have hmatched : matched l ci k :=
    ⟨kindci, kindk, hci, by omega, fun t ht hct => hforall t ht hct⟩
  have hcim : ci < m.length := getElem?_some_lt hmci
  have hm2ci : ((m ++ [some (ci + 1)]).set ci (some (k + 1)))[ci]? =
      some (some (k + 1)) := by
    refine List.getElem?_set_self ?_
    simp
    omega
  have hm2k : ((m ++ [some (ci + 1)]).set ci (some (k + 1)))[k]? =
      some (some (ci + 1)) := by
    rw [List.getElem?_set_ne (Nat.ne_of_lt hci), ← inv.mlen]
    exact List.getElem?_concat_length m _
  have hm2old : ∀ {idx : Nat}, idx < m.length → idx ≠ ci →
      ((m ++ [some (ci + 1)]).set ci (some (k + 1)))[idx]? = m[idx]? := by
    intro idx h hne
    rw [List.getElem?_set_ne (Ne.symm hne), List.getElem?_append_left h]
  refine ⟨hmatched, hklt, by simp [inv.mlen], ?_, ?_, ?_, ?_⟩
  · refine stackok_congr
      (stackok_advance (stackok_set (stackok_append hrest _) ?_) (by omega)) (by omega)
    intro q hq he
    have := (stackok_mem hrest hq).2.2.2.2.1
    rw [he] at this
    omega
  · intro i hik hkind
    rcases Nat.lt_succ_iff_lt_or_eq.1 hik with hik' | rfl
    · rcases inv.opens i hik' hkind with ⟨li', hmem⟩ | ⟨j, hj, hmj, e1, e2⟩
      · rcases List.mem_cons.1 hmem with heq | hmem'
        · obtain ⟨hi, -⟩ := Prod.mk.injEq .. ▸ heq
          subst hi
          exact Or.inr ⟨k, Nat.lt_succ_self k, hmatched, hm2ci, hm2k⟩
        · exact Or.inl ⟨li', hmem'⟩
      · have hic : i ≠ ci := by
          intro he
          rw [he, hmci] at e1
          exact Option.noConfusion (Option.some.inj e1)
        have hjc : j ≠ ci := by
          intro he
          rw [he, hmci] at e2
          exact Option.noConfusion (Option.some.inj e2)
        exact Or.inr ⟨j, Nat.lt_succ_of_lt hj, hmj,
          by rw [hm2old (getElem?_some_lt e1) hic]; exact e1,
          by rw [hm2old (getElem?_some_lt e2) hjc]; exact e2⟩
    · rw [kindk] at hkind
      exact absurd (Option.some.inj hkind) (by decide)
  · intro j hjk hkind
    rcases Nat.lt_succ_iff_lt_or_eq.1 hjk with hjk' | rfl
    · obtain ⟨i, hmi, e1, e2⟩ := inv.closes j hjk' hkind
      have hic : i ≠ ci := by
        intro he
        rw [he, hmci] at e2
        exact Option.noConfusion (Option.some.inj e2)
      have hjc : j ≠ ci := by
        intro he
        rw [he, hmci] at e1
        exact Option.noConfusion (Option.some.inj e1)
      exact ⟨i, hmi, by rw [hm2old (getElem?_some_lt e1) hjc]; exact e1,
        by rw [hm2old (getElem?_some_lt e2) hic]; exact e2⟩
    · exact ⟨ci, hmatched, hm2k, hm2ci⟩
  · intro i hik hz
    rcases Nat.lt_succ_iff_lt_or_eq.1 hik with hik' | rfl
    · have hic : i ≠ ci := by
        intro he
        rw [he, kindci] at hz
        exact absurd hz (by decide)
      have := inv.others i hik' hz
      rw [hm2old (getElem?_some_lt this) hic]; exact this
    · rw [kindk] at hz
      exact absurd hz (by decide)

theorem walkinv_step_other {l : List LocalisedInstruction} {k : Nat}
    {stack : List (Nat × LocalisedInstruction)} {m : List (Option Nat)}
    {li : LocalisedInstruction}
    (inv : WalkInv l k stack m) (hget : l[k]? = some li)
    (h1 : li.instruction ≠ Instruction.ConditionalJumpForward)
    (h2 : li.instruction ≠ Instruction.ConditionalJumpBackward) :
    WalkInv l (k + 1) stack (m ++ [none]) := by
  have hklt : k < l.length := getElem?_some_lt hget
  have kindk : kindAt l k = some li.instruction := kindAt_of_getElem? hget
  have dsucc : depth l (k + 1) = depth l k :=
    depth_succ_other (by rw [kindk]; exact fun h => h1 (Option.some.inj h))
      (by rw [kindk]; exact fun h => h2 (Option.some.inj h))
  have hmk : (m ++ [none])[k]? = some none := by
    rw [← inv.mlen]; exact List.getElem?_concat_length m none
  have hold : ∀ {idx : Nat}, idx < m.length → (m ++ [none])[idx]? = m[idx]? :=
    fun h => List.getElem?_append_left h
  refine ⟨hklt, by simp [inv.mlen],
    stackok_congr
      (stackok_advance (stackok_append inv.stk [none]) (by omega)) (by omega),
    ?_, ?_, ?_⟩
  · intro i hik hkind
    rcases Nat.lt_succ_iff_lt_or_eq.1 hik with hik' | rfl
    · rcases inv.opens i hik' hkind with ⟨li', hmem⟩ | ⟨j, hj, hmj, e1, e2⟩
      · exact Or.inl ⟨li', hmem⟩
      · exact Or.inr ⟨j, Nat.lt_succ_of_lt hj, hmj,
          by rw [hold (getElem?_some_lt e1)]; exact e1,
          by rw [hold (getElem?_some_lt e2)]; exact e2⟩
    · rw [kindk] at hkind
      exact absurd (Option.some.inj hkind) h1
  · intro j hjk hkind
    rcases Nat.lt_succ_iff_lt_or_eq.1 hjk with hjk' | rfl
    · obtain ⟨i, hmi, e1, e2⟩ := inv.closes j hjk' hkind
      exact ⟨i, hmi, by rw [hold (getElem?_some_lt e1)]; exact e1,
        by rw [hold (getElem?_some_lt e2)]; exact e2⟩
    · rw [kindk] at hkind
      exact absurd (Option.some.inj hkind) h2
  · intro i hik hz
    rcases Nat.lt_succ_iff_lt_or_eq.1 hik with hik' | rfl
    · have := inv.others i hik' hz
      rw [hold (getElem?_some_lt this)]; exact this
    · exact hmk

/-- Main induction over the bracket-matching walk.  If the walk over the
remaining instructions ends without error, the invariant holds over the
whole program; if it errors, the error names the first backward jump
scanned while the stack (equivalently, the nesting depth) was zero. -/
theorem walk_main (l : List LocalisedInstruction) (name : String) :
    ∀ (rest : List LocalisedInstruction) (k : Nat)
      (stack : List (Nat × LocalisedInstruction)) (m : List (Option Nat)),
      l.drop k = rest → WalkInv l k stack m →
      (∀ s' m', analyseWalk name (List.enumFrom k rest) stack m = .ok (s', m') →
          WalkInv l l.length s' m') ∧
      (∀ e, analyseWalk name (List.enumFrom k rest) stack m = .error e →
          ∃ j li, k ≤ j ∧ l[j]? = some li ∧
            li.instruction = Instruction.ConditionalJumpBackward ∧
            depth l j = 0 ∧
            (∀ t, k ≤ t → t < j →
              kindAt l t = some Instruction.ConditionalJumpBackward → 0 < depth l t) ∧
            e = ⟨name, li.line_num, li.column_num⟩) := by
  intro rest
  induction rest with
  | nil =>
    intro k stack m hdrop inv
    have hk : l.length ≤ k := by
      have := congrArg List.length hdrop
      simp [List.length_drop] at this
      omega
    have hkeq : k = l.length := Nat.le_antisymm inv.kle hk
    constructor
    · intro s' m' h
      simp only [List.enumFrom, analyseWalk] at h
      obtain ⟨h1, h2⟩ := Prod.mk.injEq .. ▸ Except.ok.inj h
      subst h1; subst h2
      exact hkeq ▸ inv
    · intro e he
      simp only [List.enumFrom, analyseWalk] at he
      exact Except.noConfusion he
  | cons li rest ih =>
    intro k stack m hdrop inv
    obtain ⟨hget, hdrop'⟩ := drop_eq_cons hdrop
    have kindk : kindAt l k = some li.instruction := kindAt_of_getElem? hget
    by_cases hJF : li.instruction = Instruction.ConditionalJumpForward
    · have heq : analyseWalk name (List.enumFrom k (li :: rest)) stack m =
          analyseWalk name (List.enumFrom (k + 1) rest) ((k, li) :: stack) (m ++ [none]) := by
        simp [List.enumFrom, analyseWalk, hJF]
      rw [heq]
      obtain ⟨okp, errp⟩ := ih (k + 1) _ _ hdrop' (walkinv_step_open inv hget hJF)
      refine ⟨okp, ?_⟩
      intro e he
      obtain ⟨j, lij, hkj, hgj, hkindj, hdj, hprev, heqe⟩ := errp e he
      refine ⟨j, lij, by omega, hgj, hkindj, hdj, ?_, heqe⟩
      intro t hkt htj hkind
      rcases Nat.eq_or_lt_of_le hkt with rfl | hlt
      · rw [kindk, hJF] at hkind
        exact absurd (Option.some.inj hkind) (by decide)
      · exact hprev t hlt htj hkind
    · by_cases hJB : li.instruction = Instruction.ConditionalJumpBackward
      · cases stack with
        | nil =>
          have heq : analyseWalk name (List.enumFrom k (li :: rest)) [] m =
              .error ⟨name, li.line_num, li.column_num⟩ := by
            simp [List.enumFrom, analyseWalk, hJF, hJB]
          rw [heq]
          constructor
          · intro s' m' h
            exact Except.noConfusion h
          · intro e he
            have he' : e = ⟨name, li.line_num, li.column_num⟩ :=
              (Except.error.inj he).symm
            have hd0 : depth l k = 0 := by
              have := stackok_length inv.stk
              simpa using this
            exact ⟨k, li, Nat.le_refl k, hget, hJB, hd0,
              fun t h1 h2 _ => absurd h2 (by omega), he'⟩
        | cons popped stack' =>
          obtain ⟨ci, cli⟩ := popped
          have heq : analyseWalk name (List.enumFrom k (li :: rest)) ((ci, cli) :: stack') m =
              analyseWalk name (List.enumFrom (k + 1) rest) stack'
                ((m ++ [some (ci + 1)]).set ci (some (k + 1))) := by
            simp [List.enumFrom, analyseWalk, hJF, hJB]
          rw [heq]
          obtain ⟨hmatched, inv'⟩ := walkinv_step_close inv hget hJB
          obtain ⟨okp, errp⟩ := ih (k + 1) _ _ hdrop' inv'
          refine ⟨okp, ?_⟩
          intro e he
          obtain ⟨j, lij, hkj, hgj, hkindj, hdj, hprev, heqe⟩ := errp e he
          refine ⟨j, lij, by omega, hgj, hkindj, hdj, ?_, heqe⟩
          intro t hkt htj hkind
          rcases Nat.eq_or_lt_of_le hkt with rfl | hlt
          · have hlen := stackok_length inv.stk
            simp [List.length_cons] at hlen
            omega
          · exact hprev t hlt htj hkind
      · have heq : analyseWalk name (List.enumFrom k (li :: rest)) stack m =
            analyseWalk name (List.enumFrom (k + 1) rest) stack (m ++ [none]) := by
          simp [List.enumFrom, analyseWalk, hJF, hJB]
        rw [heq]
        obtain ⟨okp, errp⟩ := ih (k + 1) _ _ hdrop' (walkinv_step_other inv hget hJF hJB)
        refine ⟨okp, ?_⟩
        intro e he
        obtain ⟨j, lij, hkj, hgj, hkindj, hdj, hprev, heqe⟩ := errp e he
        refine ⟨j, lij, by omega, hgj, hkindj, hdj, ?_, heqe⟩
        intro t hkt htj hkind
        rcases Nat.eq_or_lt_of_le hkt with rfl | hlt
        · rw [kindk] at hkind
          exact absurd (Option.some.inj hkind) hJB
        · exact hprev t hlt htj hkind

/-! ## Uniqueness of matched partners -/

theorem matched_close_unique {l : List LocalisedInstruction} {i j j' : Nat}
    (h1 : matched l i j) (h2 : matched l i j') : j = j' := by
  rcases Nat.lt_trichotomy j j' with hlt | heq | hgt
  · have := h2.2.2.2.2 (j + 1) (by omega) (by have := h1.2.2.1; omega)
    rw [h1.2.2.2.1] at this
    omega
  · exact heq
  · have := h1.2.2.2.2 (j' + 1) (by omega) (by have := h2.2.2.1; omega)
    rw [h2.2.2.2.1] at this
    omega

theorem matched_open_unique {l : List LocalisedInstruction} {i i' j : Nat}
    (h1 : matched l i j) (h2 : matched l i' j) : i = i' := by
  rcases Nat.lt_trichotomy i i' with hlt | heq | hgt
  · have hd := h1.2.2.2.2 i' (Nat.le_of_lt h2.2.2.1) hlt
    have e1 := h1.2.2.2.1
    have e2 := h2.2.2.2.1
    omega
  · exact heq
  · have hd := h2.2.2.2.2 i (Nat.le_of_lt h1.2.2.1) hgt
    have e1 := h1.2.2.2.1
    have e2 := h2.2.2.2.1
    omega

/-! ## Characterisation of `BfProgram::new` -/

theorem analyse_new_eq (name contents : String) :
    BfProgram.new name contents =
      (match analyseWalk name (lex contents).enum [] [] with
      | .error e => .error e
      | .ok (stack, m) =>
        match stack with
        | uj :: _ => .error ⟨name, uj.2.line_num, uj.2.column_num⟩
        | [] => .ok ⟨name, lex contents, m⟩) := rfl

theorem new_ok {name contents : String} {p : BfProgram}
    (h : BfProgram.new name contents = .ok p) :
    ∃ m, p = ⟨name, lex contents, m⟩ ∧
      WalkInv (lex contents) (lex contents).length [] m := by
  rw [analyse_new_eq] at h
  cases e : analyseWalk name (lex contents).enum [] [] with
  | error err => rw [e] at h; exact Except.noConfusion h
  | ok sm =>
    obtain ⟨stack, m⟩ := sm
    rw [e] at h
    cases stack with
    | cons uj rest => exact Except.noConfusion h
    | nil =>
      have hp : p = ⟨name, lex contents, m⟩ := (Except.ok.inj h).symm
      have inv := (walk_main (lex contents) name (lex contents) 0 [] []
        rfl (walkinv_zero _)).1 [] m e
      exact ⟨m, hp, inv⟩

theorem inv_entries {l : List LocalisedInstruction} {m : List (Option Nat)}
    (inv : WalkInv l l.length [] m) {i j : Nat} (hm : matched l i j) :
    m[i]? = some (some (j + 1)) ∧ m[j]? = some (some (i + 1)) := by
  have hj : j < l.length := kindAt_lt hm.2.1
  obtain ⟨i', hmi', e1, e2⟩ := inv.closes j hj hm.2.1
  have hii : i = i' := matched_open_unique hm hmi'
  subst hii
  exact ⟨e2, e1⟩

theorem inv_coverage {l : List LocalisedInstruction} {m : List (Option Nat)}
    (inv : WalkInv l l.length [] m) {i : Nat}
    (hbr : kindAt l i = some Instruction.ConditionalJumpForward ∨
      kindAt l i = some Instruction.ConditionalJumpBackward) :
    ∃ t, m[i]? = some (some t) := by
  rcases hbr with h | h
  · rcases inv.opens i (kindAt_lt h) h with ⟨li, hmem⟩ | ⟨j, -, -, e1, -⟩
    · cases hmem
    · exact ⟨j + 1, e1⟩
  · obtain ⟨i', -, e1, -⟩ := inv.closes i (kindAt_lt h) h
    exact ⟨i' + 1, e1⟩

/-! ## Claim theorems -/

/-- C1: for every source text whose bracket instructions are correctly
nested, `BfProgram::new` succeeds, and for every matched pair of a
`ConditionalJumpForward` at index `i` and its partner
`ConditionalJumpBackward` at index `j`, the jump table maps `i` to `j+1`
and `j` to `i+1`. -/
theorem jump_table_correct_of_balanced (name contents : String)
    (hbal : balanced (lex contents)) :
    ∃ p, BfProgram.new name contents = .ok p ∧
      ∀ i j, matched p.instructions i j →
        p.jump_map[i]? = some (some (j + 1)) ∧
        p.jump_map[j]? = some (some (i + 1)) := by
  set l := lex contents with hl
  cases e : analyseWalk name l.enum [] [] with
  | error err =>
    exfalso
    obtain ⟨j, lij, -, hgj, hkindj, hdj, -, -⟩ :=
      (walk_main l name l 0 [] [] rfl (walkinv_zero _)).2 err e
    have hjlt : j < l.length := getElem?_some_lt hgj
    have kindj : kindAt l j = some Instruction.ConditionalJumpBackward := by
      rw [kindAt_of_getElem? hgj, hkindj]
    have hstep : depth l (j + 1) = depth l j - 1 := depth_succ_close kindj
    have := hbal.1 (j + 1) (by omega)
    omega
  | ok sm =>
    obtain ⟨stack, m⟩ := sm
    have inv := (walk_main l name l 0 [] [] rfl (walkinv_zero _)).1 stack m e
    cases stack with
    | cons top rest =>
      exfalso
      obtain ⟨i0, li0⟩ := top
      obtain ⟨h1, -, -, -, h5, -, -⟩ := inv.stk
      have := hbal.1 i0 (Nat.le_of_lt h1)
      have := hbal.2
      omega
    | nil =>
      refine ⟨⟨name, l, m⟩, ?_, ?_⟩
      · rw [analyse_new_eq, e]
      · intro i j hm
        exact inv_entries inv hm

theorem jump_table_correct_of_balanced_witness :
    balanced (lex "[]") ∧
    ∃ p, BfProgram.new "w1.bf" "[]" = .ok p ∧
      ∀ i j, matched p.instructions i j →
        p.jump_map[i]? = some (some (j + 1)) ∧
        p.jump_map[j]? = some (some (i + 1)) :=
  ⟨by decide, jump_table_correct_of_balanced "w1.bf" "[]" (by decide)⟩

/-- C2 (counterexample): on the source text `"[["`, both forward jumps are
unmatched; the outermost (least recently pushed) one sits at line 1,
column 1, but `BfProgram::new` reports line 1, column 2 — the most
recently pushed one.  So the claim that the outermost remaining bracket is
reported is false. -/
theorem unmatched_open_report_counterexample :
    BfProgram.new "t.bf" "[[" = .error ⟨"t.bf", 1, 2⟩ ∧
    unmatchedOpen (lex "[[") 0 ∧
    (lex "[[")[0]? = some ⟨Instruction.ConditionalJumpForward, 1, 1⟩ ∧
    (⟨"t.bf", 1, 2⟩ : AnalysisError) ≠ ⟨"t.bf", 1, 1⟩ :=
  ⟨rfl, by decide, rfl, by decide⟩

/-- C2 (amended): if the bracket-matching walk completes without hitting
an unmatched closing bracket but its stack is non-empty, `BfProgram::new`
fails with an unmatched-bracket error reporting the line and column of the
innermost (most recently pushed, i.e. greatest-index) remaining unmatched
forward-jump instruction. -/
theorem unmatched_open_reports_innermost (name contents : String)
    (stack : List (Nat × LocalisedInstruction)) (m : List (Option Nat))
    (hwalk : analyseWalk name (lex contents).enum [] [] = .ok (stack, m))
    (hne : stack ≠ []) :
    ∃ i li, unmatchedOpen (lex contents) i ∧
      (∀ i', unmatchedOpen (lex contents) i' → i' ≤ i) ∧
      (lex contents)[i]? = some li ∧
      BfProgram.new name contents = .error ⟨name, li.line_num, li.column_num⟩ := by
  set l := lex contents with hl
  have inv := (walk_main l name l 0 [] [] rfl (walkinv_zero _)).1 stack m hwalk
  cases stack with
  | nil => exact absurd rfl hne
  | cons top rest =>
    obtain ⟨i0, li0⟩ := top
    obtain ⟨h1, h2, h3, h4, h5, h6, h7⟩ := inv.stk
    refine ⟨i0, li0, ⟨by rw [kindAt_of_getElem? h2, h3], ?_⟩, ?_, h2, ?_⟩
    · intro j hj hmj
      obtain ⟨i', hmi', e1, e2⟩ := inv.closes j (kindAt_lt hmj.2.1) hmj.2.1
      have hii : i0 = i' := matched_open_unique hmj hmi'
      subst hii
      rw [h4] at e2
      exact Option.noConfusion (Option.some.inj e2)
    · intro i' hi'
      by_contra hgt
      push_neg at hgt
      have hi'lt : i' < l.length := kindAt_lt hi'.1
      rcases inv.opens i' hi'lt hi'.1 with ⟨li', hmem⟩ | ⟨j, hj, hmj, -, -⟩
      · rcases List.mem_cons.1 hmem with heq | hmem'
        · obtain ⟨hii, -⟩ := Prod.mk.injEq .. ▸ heq
          omega
        · obtain ⟨-, -, -, -, hd, -⟩ := stackok_mem h7 hmem'
          have := h6 i' (Nat.le_of_lt hi'lt) hgt
          omega
      · exact absurd hmj (hi'.2 j hj)
    · rw [analyse_new_eq, hwalk]

theorem unmatched_open_reports_innermost_witness :
    ∃ i li, unmatchedOpen (lex "[[") i ∧
      (∀ i', unmatchedOpen (lex "[[") i' → i' ≤ i) ∧
      (lex "[[")[i]? = some li ∧
      BfProgram.new "t.bf" "[[" = .error ⟨"t.bf", li.line_num, li.column_num⟩ :=
  unmatched_open_reports_innermost "t.bf" "[["
    [(1, ⟨Instruction.ConditionalJumpForward, 1, 2⟩),
     (0, ⟨Instruction.ConditionalJumpForward, 1, 1⟩)]
    [none, none] rfl (by decide)

/-- C10: for every successfully built program and every in-range
instruction index holding a non-bracket instruction, `BfProgram::jump_target`
returns `0` (it does not signal an error), exactly the value a genuine
jump target of `0` would produce. -/
theorem jump_target_zero_on_non_bracket (name contents : String)
    (p : BfProgram) (i : Nat)
    (hnew : BfProgram.new name contents = .ok p)
    (hi : i < p.instructions.length)
    (h1 : kindAt p.instructions i ≠ some Instruction.ConditionalJumpForward)
    (h2 : kindAt p.instructions i ≠ some Instruction.ConditionalJumpBackward) :
    p.jump_target i = some 0 := by
  obtain ⟨m, hp, inv⟩ := new_ok hnew
  subst hp
  have hgi : (lex contents)[i]? = some ((lex contents).get ⟨i, hi⟩) :=
    List.getElem?_eq_getElem hi
  have kindi := kindAt_of_getElem? hgi
  have hz : bracketDelta (kindAt (lex contents) i) = 0 := by
    rw [kindi]
    refine bracketDelta_other ?_ ?_
    · intro hx
      exact h1 (by rw [kindi, hx])
    · intro hx
      exact h2 (by rw [kindi, hx])
  have hmi := inv.others i hi hz
  simp only [BfProgram.jump_target]
  rw [hmi]
  rfl

theorem jump_target_zero_on_non_bracket_witness :
    (⟨"w10.bf",
      [⟨Instruction.Increment, 1, 1⟩, ⟨Instruction.ConditionalJumpForward, 1, 2⟩,
       ⟨Instruction.ConditionalJumpBackward, 1, 3⟩],
      [none, some 3, some 2]⟩ : BfProgram).jump_target 0 = some 0 :=
  jump_target_zero_on_non_bracket "w10.bf" "+[]" _ 0 rfl (by decide) (by decide) (by decide)

/-! ## Existence of partner brackets (for the unmatched-close claim) -/

theorem bracketDelta_bounds (o : Option Instruction) :
    -1 ≤ bracketDelta o ∧ bracketDelta o ≤ 1 := by
  rcases o with - | x
  · exact ⟨by norm_num [bracketDelta], by norm_num [bracketDelta]⟩
  · cases x <;> exact ⟨by norm_num [bracketDelta], by norm_num [bracketDelta]⟩

theorem bracketDelta_nonneg_of_ne {o : Option Instruction}
    (h : o ≠ some Instruction.ConditionalJumpBackward) : 0 ≤ bracketDelta o := by
  rcases o with - | x
  · norm_num [bracketDelta]
  · cases x <;> first | exact absurd rfl h | norm_num [bracketDelta]

/-- Discrete intermediate value property for the nesting depth: the depth
changes by at most one per step, so it passes through every value between
two of its values. -/
theorem depth_ivt (l : List LocalisedInstruction) (c : Int) :
    ∀ b a, a ≤ b → depth l a ≤ c → c ≤ depth l b →
    ∃ t, a ≤ t ∧ t ≤ b ∧ depth l t = c := by
  intro b
  induction b with
  | zero =>
    intro a ha h1 h2
    have ha0 : a = 0 := Nat.le_zero.1 ha
    subst ha0
    exact ⟨0, Nat.le_refl 0, Nat.le_refl 0, by omega⟩
  | succ b ihb =>
    intro a ha h1 h2
    rcases Nat.lt_or_ge b a with hba | hab
    · have haeq : a = b + 1 := by omega
      subst haeq
      exact ⟨b + 1, Nat.le_refl _, Nat.le_refl _, by omega⟩
    · by_cases hc : c ≤ depth l b
      · obtain ⟨t, ht1, ht2, ht3⟩ := ihb a hab h1 hc
        exact ⟨t, ht1, by omega, ht3⟩
      · push_neg at hc
        have hstep := depth_succ l b
        have hbd := bracketDelta_bounds (kindAt l b)
        exact ⟨b + 1, by omega, Nat.le_refl _, by omega⟩

/-- A backward jump scanned at positive nesting depth has a matched
forward-jump partner: the latest earlier position where the depth was one
lower. -/
theorem partner_exists {l : List LocalisedInstruction} {j : Nat}
    (hkind : kindAt l j = some Instruction.ConditionalJumpBackward)
    (hpos : 0 < depth l j) :
    ∃ i, matched l i j := by
  have hd0 : depth l 0 = 0 := rfl
  have hj1 : 1 ≤ j := by
    by_contra hj0
    have : j = 0 := by omega
    subst this
    omega
  obtain ⟨t, ht0, htj, htd⟩ := depth_ivt l (depth l j - 1) j 0 (Nat.zero_le j)
    (by omega) (by omega)
  have htj' : t ≤ j - 1 := by
    have : t ≠ j := by
      intro h
      subst h
      omega
    omega
  set P : Nat → Prop := fun u => depth l u = depth l j - 1 with hP
  have hPt : P t := htd
  set i := Nat.findGreatest P (j - 1) with hi
  have hPi : P i := Nat.findGreatest_spec htj' hPt
  have hile : i ≤ j - 1 := Nat.findGreatest_le (j - 1)
  have hij : i < j := by omega
  have hall : ∀ u ≤ j, i < u → depth l i < depth l u := by
    intro u hu hiu
    by_contra hle
    push_neg at hle
    obtain ⟨u', hu1, hu2, hu3⟩ := depth_ivt l (depth l j - 1) j u hu
      (by omega) (by omega)
    have hune : u' ≠ j := by
      intro h
      subst h
      omega
    have h1 : Nat.findGreatest P (j - 1) < u' := by omega
    have h2 : u' ≤ j - 1 := by omega
    exact Nat.findGreatest_is_greatest h1 h2 hu3
  have hgt : depth l i < depth l (i + 1) := hall (i + 1) (by omega) (by omega)
  have hstep := depth_succ l i
  have hbd := bracketDelta_bounds (kindAt l i)
  have hdelta : bracketDelta (kindAt l i) = 1 := by omega
  have hkindi : kindAt l i = some Instruction.ConditionalJumpForward := by
    rcases e : kindAt l i with - | x
    · rw [e] at hdelta
      norm_num [bracketDelta] at hdelta
    · cases x <;> rw [e] at hdelta <;>
        first | rfl | norm_num [bracketDelta] at hdelta
  have hclose := depth_succ_close hkind
  exact ⟨i, hkindi, hkind, hij, by omega, hall⟩

theorem no_partner_of_depth_zero {l : List LocalisedInstruction} {j : Nat}
    (hkind : kindAt l j = some Instruction.ConditionalJumpBackward)
    (hz : depth l j = 0)
    (hnonneg : ∀ t ≤ j, 0 ≤ depth l t) : ¬ ∃ i, matched l i j := by
  rintro ⟨i, hm⟩
  have e1 := hm.2.2.2.1
  have e2 := depth_succ_close hkind
  have := hnonneg i (Nat.le_of_lt hm.2.2.1)
  omega

theorem nonneg_of_closes_pos {l : List LocalisedInstruction} {j : Nat}
    (h : ∀ t < j, kindAt l t = some Instruction.ConditionalJumpBackward →
      0 < depth l t) :
    ∀ t ≤ j, 0 ≤ depth l t := by
  intro t
  induction t with
  | zero =>
    intro
    norm_num [depth]
  | succ t iht =>
    intro ht
    have h0 := iht (by omega)
    have hstep := depth_succ l t
    by_cases hc : kindAt l t = some Instruction.ConditionalJumpBackward
    · have hpos := h t (by omega) hc
      rw [hc] at hstep
      norm_num [bracketDelta] at hstep
      omega
    · have := bracketDelta_nonneg_of_ne hc
      omega

/-- C7: for every source text containing an excess closing bracket,
`BfProgram::new` fails on the first backward jump with no matching opening
bracket, with an error reporting that bracket's exact line and column. -/
theorem unmatched_close_reported (name contents : String) (j : Nat)
    (hkind : kindAt (lex contents) j = some Instruction.ConditionalJumpBackward)
    (hnp : ∀ i, ¬ matched (lex contents) i j)
    (hfirst : ∀ j' < j,
      kindAt (lex contents) j' = some Instruction.ConditionalJumpBackward →
      ∃ i, matched (lex contents) i j') :
    ∃ li, (lex contents)[j]? = some li ∧
      BfProgram.new name contents = .error ⟨name, li.line_num, li.column_num⟩ := by
  set l := lex contents with hl
  cases e : analyseWalk name l.enum [] [] with
  | ok sm =>
    exfalso
    obtain ⟨stack, m⟩ := sm
    have inv := (walk_main l name l 0 [] [] rfl (walkinv_zero _)).1 stack m e
    obtain ⟨i, hmi, -, -⟩ := inv.closes j (kindAt_lt hkind) hkind
    exact hnp i hmi
  | error err =>
    obtain ⟨j1, li1, -, hg1, hk1, hd1, hprev, heqe⟩ :=
      (walk_main l name l 0 [] [] rfl (walkinv_zero _)).2 err e
    have kind1 : kindAt l j1 = some Instruction.ConditionalJumpBackward := by
      rw [kindAt_of_getElem? hg1, hk1]
    have hprev' : ∀ t < j1,
        kindAt l t = some Instruction.ConditionalJumpBackward → 0 < depth l t :=
      fun t ht => hprev t (Nat.zero_le t) ht
    have hnn1 := nonneg_of_closes_pos hprev'
    have hjj : j = j1 := by
      rcases Nat.lt_trichotomy j j1 with hlt | heq | hgt
      · have hpos := hprev' j hlt hkind
        obtain ⟨i, hmi⟩ := partner_exists hkind hpos
        exact absurd hmi (hnp i)
      · exact heq
      · obtain ⟨i, hmi⟩ := hfirst j1 hgt kind1
        exact absurd ⟨i, hmi⟩ (no_partner_of_depth_zero kind1 hd1 hnn1)
    subst hjj
    refine ⟨li1, hg1, ?_⟩
    rw [analyse_new_eq, e, heqe]

theorem unmatched_close_reported_witness :
    ∃ li, (lex "+]")[1]? = some li ∧
      BfProgram.new "w7.bf" "+]" = .error ⟨"w7.bf", li.line_num, li.column_num⟩ := by
  refine unmatched_close_reported "w7.bf" "+]" 1 (by decide) ?_ ?_
  · intro i hm
    have hi : i = 0 := by
      have := hm.2.2.1
      omega
    subst hi
    exact absurd hm.1 (by decide)
  · intro j' hj' hk
    have hj0 : j' = 0 := by omega
    subst hj0
    exact absurd hk (by decide)

/-! ## The lexer round-trip (instruction kinds = mapped non-comment chars) -/

theorem lexLine_kinds (line : Nat) (cs : List Char) : ∀ col : Nat,
    (lexLine line col cs).map LocalisedInstruction.instruction =
      cs.filterMap Instruction.from_char := by
  induction cs with
  | nil => intro col; rfl
  | cons c rest ih =>
    intro col
    simp only [lexLine, List.filterMap_cons]
    cases e : Instruction.from_char c with
    | none => simpa using ih (col + 1)
    | some instr => simpa using ih (col + 1)

theorem enumFrom_flatMap_snd {β : Type} (h : List Char → List β) :
    ∀ (L : List (List Char)) (n : Nat),
      (List.enumFrom n L).flatMap (fun p => h p.2) = L.flatMap h := by
  intro L
  induction L with
  | nil => intro n; rfl
  | cons x xs ih =>
    intro n
    simp only [List.enumFrom, List.flatMap_cons]
    rw [ih (n + 1)]

theorem flatten_filterMap {α β : Type} (f : α → Option β) :
    ∀ L : List (List α),
      (L.flatten).filterMap f = L.flatMap fun piece => piece.filterMap f := by
  intro L
  induction L with
  | nil => rfl
  | cons x xs ih =>
    simp only [List.flatten_cons, List.flatMap_cons, List.filterMap_append, ih]

theorem splitLines_flatten (cs : List Char) :
    (splitLines cs).flatten = cs.filter (· != '\n') := by
  induction cs with
  | nil => rfl
  | cons c rest ih =>
    by_cases hc : c = '\n'
    · subst hc
      simp only [splitLines, if_pos rfl, List.flatten_cons, List.nil_append, ih,
        List.filter_cons]
      norm_num
      exact ih
    · have hcb : (c != '\n') = true := by simp [hc]
      simp only [splitLines, if_neg hc]
      cases hsp : splitLines rest with
      | nil =>
        rw [hsp] at ih
        simp only [List.flatten_nil] at ih
        simp [List.filter_cons, hcb, ← ih]
      | cons piece pieces =>
        rw [hsp] at ih
        simp only [List.flatten_cons] at ih ⊢
        simp [List.filter_cons, hcb, List.cons_append, ← ih]

theorem filterMap_filter_newline (cs : List Char) :
    (cs.filter (· != '\n')).filterMap Instruction.from_char =
      cs.filterMap Instruction.from_char := by
  induction cs with
  | nil => rfl
  | cons c rest ih =>
    by_cases hc : c = '\n'
    · subst hc
      have hnone : Instruction.from_char '\n' = none := rfl
      simp [List.filter_cons, List.filterMap_cons, hnone, ih]
    · have hcb : (c != '\n') = true := by simp [hc]
      rw [List.filter_cons, if_pos hcb, List.filterMap_cons, List.filterMap_cons, ih]

theorem lex_kinds (contents : String) :
    (lex contents).map LocalisedInstruction.instruction =
      contents.toList.filterMap Instruction.from_char := by
  unfold lex
  rw [List.map_flatMap]
  have h1 : ∀ p : Nat × List Char,
      (lexLine p.1 0 p.2).map LocalisedInstruction.instruction =
        p.2.filterMap Instruction.from_char := fun p => lexLine_kinds p.1 p.2 0
  calc ((splitLines contents.toList).enum).flatMap
        (fun p => (lexLine p.1 0 p.2).map LocalisedInstruction.instruction)
      = ((splitLines contents.toList).enum).flatMap
          (fun p => p.2.filterMap Instruction.from_char) := by
        apply List.flatMap_congr
        intro p hp
        exact h1 p
    _ = (splitLines contents.toList).flatMap
          (fun piece => piece.filterMap Instruction.from_char) :=
        enumFrom_flatMap_snd _ _ 0
    _ = ((splitLines contents.toList).flatten).filterMap Instruction.from_char :=
        (flatten_filterMap _ _).symm
    _ = (contents.toList.filter (· != '\n')).filterMap Instruction.from_char := by
        rw [splitLines_flatten]
    _ = contents.toList.filterMap Instruction.from_char :=
        filterMap_filter_newline _

/-- C8: for every source text from which a program builds successfully,
the sequence of instruction kinds of the built program equals, in order,
the instruction mapping of exactly those characters of the text in the
eight-symbol alphabet, every other character being discarded. -/
theorem program_kinds_round_trip (name contents : String) (p : BfProgram)
    (hnew : BfProgram.new name contents = .ok p) :
    p.instructions.map LocalisedInstruction.instruction =
      contents.toList.filterMap Instruction.from_char := by
  obtain ⟨m, hp, -⟩ := new_ok hnew
  subst hp
  exact lex_kinds contents

theorem program_kinds_round_trip_witness :
    ∃ p, BfProgram.new "w8.bf" "a+[b.]c" = .ok p ∧
      p.instructions.map LocalisedInstruction.instruction =
        "a+[b.]c".toList.filterMap Instruction.from_char := by
  refine ⟨_, rfl, program_kinds_round_trip "w8.bf" "a+[b.]c" _ rfl⟩

/-! ## Wrapping cell arithmetic -/

theorem wrap_inc_dec {v : Nat} (hv : v < 256) :
    wrapping_decrement (wrapping_increment v) = v := by
  unfold wrapping_increment wrapping_decrement
  omega

theorem wrap_dec_inc {v : Nat} (hv : v < 256) :
    wrapping_increment (wrapping_decrement v) = v := by
  unfold wrapping_increment wrapping_decrement
  omega

theorem cells_set_getD {l : List Nat} {i : Nat} (h : i < l.length) (v : Nat) :
    (l.set i v).getD i 0 = v := by
  rw [List.getD_eq_getElem?_getD, List.getElem?_set_self h]
  rfl

theorem cells_set_getD_self {l : List Nat} {i : Nat} (h : i < l.length) :
    l.set i (l.getD i 0) = l := by
  apply List.ext_getElem?
  intro n
  by_cases hn : n = i
  · subst hn
    rw [List.getElem?_set_self h, List.getD_eq_getElem?_getD,
      List.getElem?_eq_getElem h]
    rfl
  · rw [List.getElem?_set_ne (fun he => hn he.symm)]

/-- C9: for every 8-bit cell value `v`, the wrapping increment followed by
the wrapping decrement (and vice versa) leaves the value unchanged,
including across the 0/255 wrap boundary; consequently running
`increment_cell` then `decrement_cell` on a machine leaves its tape
unchanged. -/
theorem wrapping_round_trip (v : Nat) (vm vm1 vm2 : VirtualMachine)
    (npc1 npc2 : Nat) (hv : v < 256)
    (hlt : vm.head < vm.cells.length)
    (hval : vm.cells.getD vm.head 0 = v)
    (h1 : vm.increment_cell = .ok (npc1, vm1))
    (h2 : vm1.decrement_cell = .ok (npc2, vm2)) :
    (wrapping_decrement (wrapping_increment v) = v ∧
     wrapping_increment (wrapping_decrement v) = v) ∧
    vm2.cells = vm.cells := by
  refine ⟨⟨wrap_inc_dec hv, wrap_dec_inc hv⟩, ?_⟩
  obtain ⟨-, hvm1⟩ := Prod.mk.injEq .. ▸ Except.ok.inj h1
  obtain ⟨-, hvm2⟩ := Prod.mk.injEq .. ▸ Except.ok.inj h2
  rw [← hvm2, ← hvm1]
  show (vm.cells.set vm.head (wrapping_increment (vm.cells.getD vm.head 0))).set
      vm.head (wrapping_decrement
        ((vm.cells.set vm.head
          (wrapping_increment (vm.cells.getD vm.head 0))).getD vm.head 0)) = vm.cells
  rw [hval, cells_set_getD hlt, List.set_set, wrap_inc_dec hv, ← hval,
    cells_set_getD_self hlt]

theorem wrapping_round_trip_witness :
    ((wrapping_decrement (wrapping_increment 255) = 255 ∧
      wrapping_increment (wrapping_decrement 255) = 255) ∧
     (⟨[255], 0, false, 0⟩ : VirtualMachine).cells =
       (⟨[255], 0, false, 0⟩ : VirtualMachine).cells) :=
  wrapping_round_trip 255 ⟨[255], 0, false, 0⟩ ⟨[0], 0, false, 0⟩
    ⟨[255], 0, false, 0⟩ 1 1 (by decide) (by decide) rfl rfl rfl

/-- C4 (code bug): re-analysing an already-built program while
constructing a `VirtualMachine` appends a second copy of the jump-map
entries instead of leaving the program unchanged: on the repository's own
test program `",.[test]+++."`, the jump map grows from 8 to 16 entries, so
the program borrowed by `VirtualMachine::new` is not left intact. -/
theorem vm_construction_mutates_program :
    (BfProgram.new "test_file.bf" ",.[test]+++.").toOption.map
        (fun p => p.jump_map.length) = some 8 ∧
    ((BfProgram.new "test_file.bf" ",.[test]+++.").toOption.bind
        (fun p => (VirtualMachine.new p (some 2) true).toOption)).map
        (fun r => r.2.jump_map.length) = some 16 ∧
    ((BfProgram.new "test_file.bf" ",.[test]+++.").toOption.bind
        (fun p => (VirtualMachine.new p (some 2) true).toOption.map
          (fun r => decide (r.2 = p)))) = some false :=
  ⟨rfl, rfl, rfl⟩

/-! ## Head motion on the tape -/

/-- Iterated `move_head_right`, feeding the returned next program counter
back into the machine as the interpreter loop does. -/
def applyMoveRightN (p : BfProgram) : Nat → VirtualMachine → Except VMError VirtualMachine
  | 0, vm => .ok vm
  | k + 1, vm =>
    match vm.move_head_right p with
    | .error e => .error e
    | .ok (npc, vm') => applyMoveRightN p k { vm' with program_counter := npc }

theorem moveRight_ok_inner {p : BfProgram} {vm : VirtualMachine}
    (hgrow : vm.tape_can_grow = false)
    (hlt : vm.head + 1 < vm.cells.length) :
    vm.move_head_right p =
      .ok (vm.program_counter + 1, { vm with head := vm.head + 1 }) := by
  unfold VirtualMachine.move_head_right
  simp only []
  rw [if_neg (by omega : ¬ (vm.head + 1 = vm.cells.length))]

theorem moveRight_overrun {p : BfProgram} {vm : VirtualMachine}
    (hgrow : vm.tape_can_grow = false)
    (hlt : vm.head + 1 = vm.cells.length) :
    vm.move_head_right p =
      .error (.HeadOverrun (currentInstr p { vm with head := vm.head + 1 })) := by
  unfold VirtualMachine.move_head_right
  simp only []
  rw [if_pos hlt, if_neg (by simp [hgrow])]

theorem applyMoveRightN_ok_fixed (p : BfProgram) :
    ∀ (k : Nat) (vm : VirtualMachine), vm.tape_can_grow = false →
      vm.head + k < vm.cells.length →
      ∃ vm', applyMoveRightN p k vm = .ok vm' ∧
        vm'.head = vm.head + k ∧ vm'.cells = vm.cells ∧
        vm'.tape_can_grow = false := by
  intro k
  induction k with
  | zero =>
    intro vm hg hk
    exact ⟨vm, rfl, by omega, rfl, hg⟩
  | succ k ih =>
    intro vm hg hk
    have hstep := moveRight_ok_inner (p := p) hg (by omega)
    simp only [applyMoveRightN, hstep]
    obtain ⟨vm', h1, h2, h3, h4⟩ :=
      ih { vm with head := vm.head + 1, program_counter := vm.program_counter + 1 }
        hg (by simp; omega)
    exact ⟨vm', h1, by simp at h2; omega, h3, h4⟩

theorem applyMoveRightN_overrun (p : BfProgram) :
    ∀ (k : Nat) (vm : VirtualMachine), vm.tape_can_grow = false →
      vm.head + k + 1 = vm.cells.length →
      ∃ li, applyMoveRightN p (k + 1) vm = .error (.HeadOverrun li) := by
  intro k
  induction k with
  | zero =>
    intro vm hg hk
    have hstep := moveRight_overrun (p := p) hg (by omega)
    simp only [applyMoveRightN, hstep]
    exact ⟨_, rfl⟩
  | succ k ih =>
    intro vm hg hk
    have hstep := moveRight_ok_inner (p := p) hg (by omega)
    simp only [applyMoveRightN, hstep]
    obtain ⟨li, hli⟩ :=
      ih { vm with head := vm.head + 1, program_counter := vm.program_counter + 1 }
        hg (by simp; omega)
    rw [applyMoveRightN] at hli
    exact ⟨li, hli⟩

theorem moveRight_grow_ok (p : BfProgram) (vm : VirtualMachine)
    (hgrow : vm.tape_can_grow = true) :
    ∃ vm', vm.move_head_right p = .ok (vm.program_counter + 1, vm') ∧
      vm'.head = vm.head + 1 ∧
      vm'.cells.length = vm.cells.length +
        (if vm.head + 1 = vm.cells.length then 1 else 0) ∧
      (vm.head + 1 = vm.cells.length → vm'.cells = vm.cells ++ [0]) := by
  unfold VirtualMachine.move_head_right
  simp only []
  by_cases hb : vm.head + 1 = vm.cells.length
  · rw [if_pos hb, if_pos (by simp [hgrow])]
    refine ⟨{ vm with head := vm.head + 1, cells := vm.cells ++ [0] }, rfl, rfl, ?_, fun _ => rfl⟩
    simp [hb]
  · rw [if_neg hb]
    exact ⟨{ vm with head := vm.head + 1 }, rfl, rfl, by simp [hb], fun h => absurd h hb⟩

/-- C5: on a non-growable tape of size `N` with the head starting at 0,
the first `N-1` `MoveRight` steps succeed (leaving the tape unchanged) and
the `N`-th fails with `HeadOverrun`; on a growable tape `move_head_right`
never fails, and a crossing of the end boundary grows the tape by exactly
one zero cell (a non-crossing step leaves the length unchanged). -/
theorem move_right_tape_spec (p : BfProgram) (vm vm2 : VirtualMachine)
    (N k : Nat)
    (hg : vm.tape_can_grow = false) (hh : vm.head = 0)
    (hN : vm.cells.length = N) (hpos : 0 < N) (hk : k < N)
    (hg2 : vm2.tape_can_grow = true) :
    (∃ vm', applyMoveRightN p k vm = .ok vm' ∧ vm'.head = k ∧
      vm'.cells = vm.cells) ∧
    (∃ li, applyMoveRightN p N vm = .error (.HeadOverrun li)) ∧
    (∃ vm2', vm2.move_head_right p = .ok (vm2.program_counter + 1, vm2') ∧
      vm2'.head = vm2.head + 1 ∧
      vm2'.cells.length = vm2.cells.length +
        (if vm2.head + 1 = vm2.cells.length then 1 else 0) ∧
      (vm2.head + 1 = vm2.cells.length → vm2'.cells = vm2.cells ++ [0])) := by
  refine ⟨?_, ?_, moveRight_grow_ok p vm2 hg2⟩
  · obtain ⟨vm', h1, h2, h3, -⟩ := applyMoveRightN_ok_fixed p k vm hg (by omega)
    exact ⟨vm', h1, by omega, h3⟩
  · obtain ⟨li, hli⟩ := applyMoveRightN_overrun p (N - 1) vm hg (by omega)
    have : N - 1 + 1 = N := by omega
    rw [this] at hli
    exact ⟨li, hli⟩

theorem move_right_tape_spec_witness :
    ((∃ vm', applyMoveRightN (⟨"w5.bf", [], []⟩ : BfProgram) 1
        ⟨[0, 0], 0, false, 0⟩ = .ok vm' ∧ vm'.head = 1 ∧
        vm'.cells = (⟨[0, 0], 0, false, 0⟩ : VirtualMachine).cells) ∧
     (∃ li, applyMoveRightN (⟨"w5.bf", [], []⟩ : BfProgram) 2
        ⟨[0, 0], 0, false, 0⟩ = .error (.HeadOverrun li)) ∧
     (∃ vm2', VirtualMachine.move_head_right ⟨"w5.bf", [], []⟩
          ⟨[7], 0, true, 0⟩ = .ok (0 + 1, vm2') ∧
        vm2'.head = (⟨[7], 0, true, 0⟩ : VirtualMachine).head + 1 ∧
        vm2'.cells.length = (⟨[7], 0, true, 0⟩ : VirtualMachine).cells.length +
          (if (⟨[7], 0, true, 0⟩ : VirtualMachine).head + 1 =
            (⟨[7], 0, true, 0⟩ : VirtualMachine).cells.length then 1 else 0) ∧
        ((⟨[7], 0, true, 0⟩ : VirtualMachine).head + 1 =
            (⟨[7], 0, true, 0⟩ : VirtualMachine).cells.length →
          vm2'.cells = (⟨[7], 0, true, 0⟩ : VirtualMachine).cells ++ [0]))) :=
  move_right_tape_spec ⟨"w5.bf", [], []⟩ ⟨[0, 0], 0, false, 0⟩ ⟨[7], 0, true, 0⟩
    2 1 rfl rfl rfl (by decide) (by decide) rfl

/-! ## Shapes of the per-instruction handlers -/

theorem move_head_left_ok_state {p : BfProgram} {vm : VirtualMachine}
    {npc : Nat} {vm' : VirtualMachine}
    (h : vm.move_head_left p = .ok (npc, vm')) :
    vm'.cells = vm.cells ∧ vm'.head ≤ vm.head := by
  unfold VirtualMachine.move_head_left at h
  split at h
  · obtain ⟨-, h2⟩ := Prod.mk.injEq .. ▸ Except.ok.inj h
    rw [← h2]
    exact ⟨rfl, Nat.sub_le _ _⟩
  · exact Except.noConfusion h

theorem move_head_right_ok_state {p : BfProgram} {vm : VirtualMachine}
    {npc : Nat} {vm' : VirtualMachine}
    (h : vm.move_head_right p = .ok (npc, vm'))
    (hinv : vm.head < vm.cells.length) :
    vm'.head < vm'.cells.length := by
  unfold VirtualMachine.move_head_right at h
  simp only [] at h
  split at h
  · split at h
    · obtain ⟨-, h2⟩ := Prod.mk.injEq .. ▸ Except.ok.inj h
      rw [← h2]
      show vm.head + 1 < (vm.cells ++ [0]).length
      simp only [List.length_append, List.length_cons, List.length_nil]
      omega
    · exact Except.noConfusion h
  · rename_i hb
    obtain ⟨-, h2⟩ := Prod.mk.injEq .. ▸ Except.ok.inj h
    rw [← h2]
    show vm.head + 1 < vm.cells.length
    omega

theorem read_value_ok_state {p : BfProgram} {vm : VirtualMachine}
    {src : List Nat} {npc : Nat} {vm' : VirtualMachine} {src' : List Nat}
    (h : vm.read_value p src = .ok (npc, vm', src')) :
    vm'.cells.length = vm.cells.length ∧ vm'.head = vm.head := by
  unfold VirtualMachine.read_value at h
  cases src with
  | nil => exact Except.noConfusion h
  | cons b rest =>
    obtain ⟨-, h2⟩ := Prod.mk.injEq .. ▸ Except.ok.inj h
    obtain ⟨h3, -⟩ := Prod.mk.injEq .. ▸ h2
    rw [← h3]
    exact ⟨List.length_set .., rfl⟩

theorem move_head_left_error_shape {p : BfProgram} {vm : VirtualMachine}
    {e : VMError} (h : vm.move_head_left p = .error e) :
    ∃ li, e = .HeadUnderrun li := by
  unfold VirtualMachine.move_head_left at h
  split at h
  · exact Except.noConfusion h
  · exact ⟨_, (Except.error.inj h).symm⟩

theorem move_head_right_error_shape {p : BfProgram} {vm : VirtualMachine}
    {e : VMError} (h : vm.move_head_right p = .error e) :
    ∃ li, e = .HeadOverrun li := by
  unfold VirtualMachine.move_head_right at h
  simp only [] at h
  split at h
  · split at h
    · exact Except.noConfusion h
    · exact ⟨_, (Except.error.inj h).symm⟩
  · exact Except.noConfusion h

theorem read_value_error_shape {p : BfProgram} {vm : VirtualMachine}
    {src : List Nat} {e : VMError} (h : vm.read_value p src = .error e) :
    ∃ li msg, e = .ReadError li msg := by
  unfold VirtualMachine.read_value at h
  cases src with
  | nil => exact ⟨_, _, (Except.error.inj h).symm⟩
  | cons b rest => exact Except.noConfusion h

theorem increment_cell_ne_error (vm : VirtualMachine) (e : VMError) :
    vm.increment_cell ≠ .error e := fun h => Except.noConfusion h

theorem decrement_cell_ne_error (vm : VirtualMachine) (e : VMError) :
    vm.decrement_cell ≠ .error e := fun h => Except.noConfusion h

theorem print_value_ne_error (p : BfProgram) (vm : VirtualMachine)
    (sink : List Nat) (e : VMError) :
    vm.print_value p sink ≠ .error e := fun h => Except.noConfusion h

theorem jump_forward_ok_of_covered {p : BfProgram} {vm : VirtualMachine}
    (hcov : ∃ t, p.jump_map[vm.program_counter]? = some (some t)) :
    ∃ npc, vm.conditional_jump_forward p = .ok npc := by
  obtain ⟨t, ht⟩ := hcov
  unfold VirtualMachine.conditional_jump_forward
  rw [List.getD_eq_getElem?_getD, ht, Option.getD_some]
  show ∃ npc, (if vm.cells.getD vm.head 0 = 0 then (Except.ok t : Except VMError Nat)
      else .ok (vm.program_counter + 1)) = .ok npc
  by_cases hz : vm.cells.getD vm.head 0 = 0
  · exact ⟨t, by rw [if_pos hz]⟩
  · exact ⟨vm.program_counter + 1, by rw [if_neg hz]⟩

theorem jump_backward_ok_of_covered {p : BfProgram} {vm : VirtualMachine}
    (hcov : ∃ t, p.jump_map[vm.program_counter]? = some (some t)) :
    ∃ npc, vm.conditional_jump_backward p = .ok npc := by
  obtain ⟨t, ht⟩ := hcov
  unfold VirtualMachine.conditional_jump_backward
  rw [List.getD_eq_getElem?_getD, ht, Option.getD_some]
  show ∃ npc, (if vm.cells.getD vm.head 0 = 0
      then (Except.ok (vm.program_counter + 1) : Except VMError Nat)
      else .ok t) = .ok npc
  by_cases hz : vm.cells.getD vm.head 0 = 0
  · exact ⟨vm.program_counter + 1, by rw [if_pos hz]⟩
  · exact ⟨t, by rw [if_neg hz]⟩

/-! ## The head-in-range invariant of the interpreter loop -/

/-- States of the fuelled run in which the head is a valid index; a failed
run carries no machine state. -/
def headOk : RunResult → Prop
  | .more vm _ _ => vm.head < vm.cells.length
  | .done vm _ _ => vm.head < vm.cells.length
  | .failed _ => True

theorem interp_head_inv (p : BfProgram) :
    ∀ (fuel : Nat) (vm : VirtualMachine) (input sink : List Nat),
      vm.head < vm.cells.length →
      headOk (interpretN p fuel vm input sink) := by
  intro fuel
  induction fuel with
  | zero =>
    intro vm input sink hinv
    exact hinv
  | succ fuel ih =>
    intro vm input sink hinv
    rw [interpretN]
    split
    · split
      · -- MoveLeft
        split
        · exact trivial
        · rename_i npc vmx heq
          obtain ⟨hc, hh⟩ := move_head_left_ok_state heq
          refine ih _ _ _ ?_
          show vmx.head < vmx.cells.length
          rw [hc]
          omega
      · -- MoveRight
        split
        · exact trivial
        · rename_i npc vmx heq
          refine ih _ _ _ ?_
          show vmx.head < vmx.cells.length
          exact move_head_right_ok_state heq hinv
      · -- Increment
        split
        · exact trivial
        · rename_i npc vmx heq
          obtain ⟨-, h2⟩ := Prod.mk.injEq .. ▸ Except.ok.inj heq
          refine ih _ _ _ ?_
          rw [← h2]
          show vm.head < (vm.cells.set vm.head _).length
          rw [List.length_set]
          exact hinv
      · -- Decrement
        split
        · exact trivial
        · rename_i npc vmx heq
          obtain ⟨-, h2⟩ := Prod.mk.injEq .. ▸ Except.ok.inj heq
          refine ih _ _ _ ?_
          rw [← h2]
          show vm.head < (vm.cells.set vm.head _).length
          rw [List.length_set]
          exact hinv
      · -- Input
        split
        · exact trivial
        · rename_i npc vmx srcx heq
          obtain ⟨hc, hh⟩ := read_value_ok_state heq
          refine ih _ _ _ ?_
          show vmx.head < vmx.cells.length
          omega
      · -- Output
        split
        · exact trivial
        · rename_i npc sinkx heq
          exact ih _ _ _ hinv
      · -- ConditionalJumpForward
        split
        · exact trivial
        · rename_i npc heq
          exact ih _ _ _ hinv
      · -- ConditionalJumpBackward
        split
        · exact trivial
        · rename_i npc heq
          exact ih _ _ _ hinv
    · exact hinv

/-- C3: as long as the head starts in range (which it does for a machine
built by `VirtualMachine::new` with a positive tape size), every state
reachable during interpretation — after any number of loop iterations, and
at normal termination — has its head strictly inside the tape; a
`MoveLeft` at head 0 surfaces `HeadUnderrun` instead of moving, and a
fresh machine starts with its head in range. -/
theorem head_always_in_range (p prog : BfProgram) (fuel : Nat)
    (vm vm' vm0 : VirtualMachine) (p' : BfProgram)
    (input sink input' sink' : List Nat) (ts : Nat) (grow : Bool)
    (hinv : vm.head < vm.cells.length)
    (hrun : interpretN p fuel vm input sink = .more vm' input' sink' ∨
            interpretN p fuel vm input sink = .done vm' input' sink')
    (hts : 0 < ts)
    (hmk : VirtualMachine.new prog (some ts) grow = .ok (vm0, p')) :
    vm'.head < vm'.cells.length ∧
    (vm.head = 0 →
      vm.move_head_left p = .error (.HeadUnderrun (currentInstr p vm))) ∧
    vm0.head < vm0.cells.length := by
  refine ⟨?_, ?_, ?_⟩
  · have hok := interp_head_inv p fuel vm input sink hinv
    rcases hrun with h | h <;> rw [h] at hok <;> exact hok
  · intro h0
    unfold VirtualMachine.move_head_left
    rw [if_neg (by omega)]
  · unfold VirtualMachine.new at hmk
    simp only [] at hmk
    cases hana : prog.analyse_program with
    | error err =>
      rw [hana] at hmk
      exact Except.noConfusion hmk
    | ok q =>
      rw [hana] at hmk
      obtain ⟨h1, -⟩ := Prod.mk.injEq .. ▸ Except.ok.inj hmk
      rw [← h1]
      show (0 : Nat) < (List.replicate ((some ts).getD 30000) (0 : Nat)).length
      simp [hts]

theorem head_always_in_range_witness :
    ((⟨[0], 0, false, 0⟩ : VirtualMachine).head <
        (⟨[0], 0, false, 0⟩ : VirtualMachine).cells.length ∧
      ((⟨[0], 0, false, 0⟩ : VirtualMachine).head = 0 →
        VirtualMachine.move_head_left ⟨"w3.bf", [], []⟩ ⟨[0], 0, false, 0⟩ =
          .error (.HeadUnderrun
            (currentInstr ⟨"w3.bf", [], []⟩ ⟨[0], 0, false, 0⟩))) ∧
      (⟨List.replicate 1 0, 0, false, 0⟩ : VirtualMachine).head <
        (⟨List.replicate 1 0, 0, false, 0⟩ : VirtualMachine).cells.length) :=
  head_always_in_range ⟨"w3.bf", [], []⟩ ⟨"w3.bf", [], []⟩ 1
    ⟨[0], 0, false, 0⟩ ⟨[0], 0, false, 0⟩ ⟨List.replicate 1 0, 0, false, 0⟩
    ⟨"w3.bf", [], []⟩ [] [] [] [] 1 false (by decide) (Or.inr rfl)
    (by decide) rfl

/-! ## No `UnmappedJump` from analysed programs -/

theorem interpret_no_unmapped (p : BfProgram)
    (hcov : ∀ i, i < p.instructions.length →
      (kindAt p.instructions i = some Instruction.ConditionalJumpForward ∨
       kindAt p.instructions i = some Instruction.ConditionalJumpBackward) →
      ∃ t, p.jump_map[i]? = some (some t)) :
    ∀ (fuel : Nat) (vm : VirtualMachine) (input sink : List Nat)
      (li : LocalisedInstruction),
      interpretN p fuel vm input sink ≠ .failed (.UnmappedJump li) := by
  intro fuel
  induction fuel with
  | zero =>
    intro vm input sink li h
    exact RunResult.noConfusion h
  | succ fuel ih =>
    intro vm input sink li h
    rw [interpretN] at h
    split at h
    · rename_i hpc
      split at h
      · -- MoveLeft
        split at h
        · rename_i e heq
          obtain ⟨lix, he⟩ := move_head_left_error_shape heq
          rw [he] at h
          exact VMError.noConfusion (RunResult.failed.inj h)
        · exact ih _ _ _ _ h
      · -- MoveRight
        split at h
        · rename_i e heq
          obtain ⟨lix, he⟩ := move_head_right_error_shape heq
          rw [he] at h
          exact VMError.noConfusion (RunResult.failed.inj h)
        · exact ih _ _ _ _ h
      · -- Increment
        split at h
        · rename_i e heq
          exact increment_cell_ne_error vm e heq
        · exact ih _ _ _ _ h
      · -- Decrement
        split at h
        · rename_i e heq
          exact decrement_cell_ne_error vm e heq
        · exact ih _ _ _ _ h
      · -- Input
        split at h
        · rename_i e heq
          obtain ⟨lix, msg, he⟩ := read_value_error_shape heq
          rw [he] at h
          exact VMError.noConfusion (RunResult.failed.inj h)
        · exact ih _ _ _ _ h
      · -- Output
        split at h
        · rename_i e heq
          exact print_value_ne_error p vm sink e heq
        · exact ih _ _ _ _ h
      · -- ConditionalJumpForward
        rename_i hinstr
        split at h
        · rename_i e heq
          have hkind : kindAt p.instructions vm.program_counter =
              some Instruction.ConditionalJumpForward := by
            rw [kindAt_of_getElem? (List.getElem?_eq_getElem hpc)]
            exact congrArg some hinstr
          obtain ⟨npc, hok⟩ :=
            jump_forward_ok_of_covered (hcov _ hpc (Or.inl hkind))
          rw [hok] at heq
          exact Except.noConfusion heq
        · exact ih _ _ _ _ h
      · -- ConditionalJumpBackward
        rename_i hinstr
        split at h
        · rename_i e heq
          have hkind : kindAt p.instructions vm.program_counter =
              some Instruction.ConditionalJumpBackward := by
            rw [kindAt_of_getElem? (List.getElem?_eq_getElem hpc)]
            exact congrArg some hinstr
          obtain ⟨npc, hok⟩ :=
            jump_backward_ok_of_covered (hcov _ hpc (Or.inr hkind))
          rw [hok] at heq
          exact Except.noConfusion heq
        · exact ih _ _ _ _ h
    · exact RunResult.noConfusion h

/-- C6: for every program successfully constructed by `BfProgram::new`,
interpretation never returns `UnmappedJump`: every bracket instruction has
a defined jump-table entry, so the error branch of the two jump handlers
is unreachable. -/
theorem no_unmapped_jump (name contents : String) (p : BfProgram)
    (hnew : BfProgram.new name contents = .ok p)
    (fuel : Nat) (vm : VirtualMachine) (input sink : List Nat)
    (li : LocalisedInstruction) :
    interpretN p fuel vm input sink ≠ .failed (.UnmappedJump li) ∧
    (vm.program_counter < p.instructions.length →
      (kindAt p.instructions vm.program_counter =
          some Instruction.ConditionalJumpForward →
        ∃ npc, vm.conditional_jump_forward p = .ok npc) ∧
      (kindAt p.instructions vm.program_counter =
          some Instruction.ConditionalJumpBackward →
        ∃ npc, vm.conditional_jump_backward p = .ok npc)) := by
  have hcov : ∀ i, i < p.instructions.length →
      (kindAt p.instructions i = some Instruction.ConditionalJumpForward ∨
       kindAt p.instructions i = some Instruction.ConditionalJumpBackward) →
      ∃ t, p.jump_map[i]? = some (some t) := by
    obtain ⟨m, hp, inv⟩ := new_ok hnew
    subst hp
    intro i hi hbr
    exact inv_coverage inv hbr
  refine ⟨interpret_no_unmapped p hcov fuel vm input sink li, fun hpc => ?_⟩
  exact ⟨fun hk => jump_forward_ok_of_covered (hcov _ hpc (Or.inl hk)),
    fun hk => jump_backward_ok_of_covered (hcov _ hpc (Or.inr hk))⟩

theorem no_unmapped_jump_witness :
    interpretN ⟨"w6.bf",
        [⟨Instruction.ConditionalJumpForward, 1, 1⟩,
         ⟨Instruction.ConditionalJumpBackward, 1, 2⟩],
        [some 2, some 1]⟩ 3 ⟨[0], 0, false, 0⟩ [] []
      ≠ .failed (.UnmappedJump ⟨Instruction.MoveLeft, 0, 0⟩) ∧
    ((⟨[0], 0, false, 0⟩ : VirtualMachine).program_counter <
        (⟨"w6.bf",
          [⟨Instruction.ConditionalJumpForward, 1, 1⟩,
           ⟨Instruction.ConditionalJumpBackward, 1, 2⟩],
          [some 2, some 1]⟩ : BfProgram).instructions.length →
      (kindAt (⟨"w6.bf",
          [⟨Instruction.ConditionalJumpForward, 1, 1⟩,
           ⟨Instruction.ConditionalJumpBackward, 1, 2⟩],
          [some 2, some 1]⟩ : BfProgram).instructions
          (⟨[0], 0, false, 0⟩ : VirtualMachine).program_counter =
          some Instruction.ConditionalJumpForward →
        ∃ npc, VirtualMachine.conditional_jump_forward
          ⟨"w6.bf",
            [⟨Instruction.ConditionalJumpForward, 1, 1⟩,
             ⟨Instruction.ConditionalJumpBackward, 1, 2⟩],
            [some 2, some 1]⟩ ⟨[0], 0, false, 0⟩ = .ok npc) ∧
      (kindAt (⟨"w6.bf",
          [⟨Instruction.ConditionalJumpForward, 1, 1⟩,
           ⟨Instruction.ConditionalJumpBackward, 1, 2⟩],
          [some 2, some 1]⟩ : BfProgram).instructions
          (⟨[0], 0, false, 0⟩ : VirtualMachine).program_counter =
          some Instruction.ConditionalJumpBackward →
        ∃ npc, VirtualMachine.conditional_jump_backward
          ⟨"w6.bf",
            [⟨Instruction.ConditionalJumpForward, 1, 1⟩,
             ⟨Instruction.ConditionalJumpBackward, 1, 2⟩],
            [some 2, some 1]⟩ ⟨[0], 0, false, 0⟩ = .ok npc)) :=
  no_unmapped_jump "w6.bf" "[]" _ rfl 3 ⟨[0], 0, false, 0⟩ [] []
    ⟨Instruction.MoveLeft, 0, 0⟩

end Bft
